import Mathlib

/-!
Shallow embedding of the PetIBM excerpt: the boundary-condition dispatcher
(`boundary::createSingleBoundary`, src/boundary/singleboundary.cpp), the
marker partitioner (`body::SingleBodyPoints`, src/body/singlebodypoints.cpp),
and the discrete delta kernel tested in tests/misc/delta_test.cpp.

Real-valued data (coordinates, forces) is embedded over `ℚ` so that the
definitions are executable; the delta kernel, which involves a square root,
is embedded over `ℝ`.
-/

namespace PetIBM

/-! ## Boundary-condition dispatcher (src/boundary/singleboundary.cpp) -/

/-- Modelled from the spec: the `type::BCType` enumeration (its header is not
part of the excerpt) has exactly five enumerators for the five boundary kinds
no-op / periodic / Dirichlet / Neumann / convective.  As a C++ enumeration its
underlying type can carry other integral values as well, so the tag is
embedded as a natural number with the five enumerators at 0..4. -/
def NOBC : Nat := 0

/-- Tag of the periodic boundary type. -/
def PERIODIC : Nat := 1

/-- Tag of the Dirichlet boundary type. -/
def DIRICHLET : Nat := 2

/-- Tag of the Neumann boundary type. -/
def NEUMANN : Nat := 3

/-- Tag of the convective boundary type. -/
def CONVECTIVE : Nat := 4

/-- The concrete boundary-value strategy objects that
`createSingleBoundary` can construct (`SingleBoundaryBase` is the no-op
strategy used for the `NOBC` tag). -/
inductive Strategy
  | base
  | periodic
  | dirichlet
  | neumann
  | convective
  deriving DecidableEq, Repr

/-- The dispatcher `boundary::createSingleBoundary`: a `switch` on the boundary type with one
`case` per enumerator and NO `default` label.  The output parameter
`singleBd` is threaded through as state: a matched case overwrites it with
the freshly constructed strategy, while a tag matching no case falls through
the `switch` and reaches `PetscFunctionReturn(0)` — success — with
`singleBd` untouched. -/
def createSingleBoundary (bcType : Nat) (singleBd : Option Strategy) :
    Except String (Option Strategy) :=
  if bcType = NOBC then .ok (some .base)
  else if bcType = PERIODIC then .ok (some .periodic)
  else if bcType = DIRICHLET then .ok (some .dirichlet)
  else if bcType = NEUMANN then .ok (some .neumann)
  else if bcType = CONVECTIVE then .ok (some .convective)
  else .ok singleBd

/-! ## Marker partitioner: global indexing (src/body/singlebodypoints.cpp) -/

/-- The member `SingleBodyPoints::getGlobalIndex(i, dof, idx)`: range-check the marker
index against `nPts` and the degree of freedom against `dim`
(`SETERRQ2(..., PETSC_ERR_ARG_SIZ, ...)` on violation), then return the
flattened global index `i * dim + dof`. -/
def getGlobalIndex (nPts dim : Nat) (i dof : Int) : Except String Int :=
  if i < 0 ∨ (nPts : Int) ≤ i then
    .error "Index of Lagrangian point on the body is out of range."
  else if dof < 0 ∨ (dim : Int) ≤ dof then
    .error "DoF is not correct."
  else
    .ok (i * dim + dof)

/-- The index computed by `std::upper_bound` over a sorted range: the index of the first element
strictly greater than `x` (equivalently, on a sorted list, the number of
leading elements `≤ x`). -/
def upperBoundIdx {α : Type} [LinearOrder α] (l : List α) (x : α) : Nat :=
  match l with
  | [] => 0
  | a :: t => if x < a then 0 else upperBoundIdx t x + 1

/-- The member `SingleBodyPoints::findProc(i, p)`: range-check `i` against `nPts`, then
`p = std::upper_bound(offsetsAllProcs, i * dim) - begin - 1`, the rank owning
the first degree of freedom of marker `i`. -/
def findProc (nPts dim : Nat) (offsetsAllProcs : List Nat) (i : Int) :
    Except String Nat :=
  if i < 0 ∨ (nPts : Int) ≤ i then
    .error "Index of Lagrangian point on the body is out of range."
  else
    .ok (upperBoundIdx offsetsAllProcs (i.toNat * dim) - 1)

/-! ## Marker partitioner: partition and offset table -/

/-- Modelled from the spec: the local block size that the external 1-D
distributed structure (`DMDACreate1d`, whose implementation lives in the
linear-algebra substrate, not in the excerpt) reports as
`lclInfo.xm = nLclPts` on rank `r` of `P` when `N` markers are distributed —
a contiguous block decomposition giving each rank `N / P` markers with the
first `N % P` ranks receiving one extra. -/
def dmdaBlockSize (N P r : Nat) : Nat :=
  N / P + if r < N % P then 1 else 0

/-- Modelled from the spec: `lclInfo.xs = bgPt` on rank `r`, the start of the
contiguous block owned by rank `r` (cumulative sum of the preceding block
sizes). -/
def dmdaBlockStart (N P : Nat) : Nat → Nat
  | 0 => 0
  | r + 1 => dmdaBlockStart N P r + dmdaBlockSize N P r

/-- The in-place prefix-sum loop of `createDMDA`
(`for r = 1..mpiSize-1: offsetsAllProcs[r] += offsetsAllProcs[r-1]`),
running left to right with accumulator `acc`. -/
def scanSum : List Nat → Nat → List Nat
  | [], _ => []
  | a :: t, acc => (acc + a) :: scanSum t (acc + a)

/-- The offset computation of `SingleBodyPoints::createDMDA` on the gathered,
`dim`-scaled local sizes `nLclAllProcs`: the vector `offsetsAllProcs` is
zero-initialized (by the base class; element 0 is never written), the first
loop shifts the scaled sizes right by one slot
(`offsetsAllProcs[r] = nLclAllProcs[r-1]` for `r = mpiSize-1 .. 1`), and the
second loop turns that into running sums in place. -/
def computeOffsets (nLclAllProcs : List Nat) : List Nat :=
  match nLclAllProcs with
  | [] => []
  | _ => scanSum (0 :: nLclAllProcs.dropLast) 0

/-- The offset table `offsetsAllProcs` as built by `createDMDA` for `N`
markers on `P` ranks with `dim` degrees of freedom per marker: gather the
local sizes, scale each by `dim`, and apply the offset computation. -/
def offsetsAllProcs (N P dim : Nat) : List Nat :=
  computeOffsets ((List.range P).map (fun r => dim * dmdaBlockSize N P r))

/-! ## Marker partitioner: mesh-index map (`updateMeshIdx`) -/

/-- The part of the external `Mesh` object that `updateMeshIdx` reads: the
per-direction domain bounds `mesh->min[d]`, `mesh->max[d]` and the
per-direction pressure-cell boundary coordinate array
`mesh->coord[4][d]` of length `mesh->n[4][d]` (assumed sorted, as
`std::upper_bound` requires). -/
structure MeshM where
  min : Nat → ℚ
  max : Nat → ℚ
  coord4 : Nat → List ℚ

/-- The inner loop of `updateMeshIdx` over the dimensions `d` of one marker
with coordinates `x`: reject a coordinate on or outside the domain bounds
(`SETERRQ3(..., PETSC_ERR_MAX_VALUE, ...)`), otherwise store
`std::upper_bound(coord[4][d], coord[4][d] + n[4][d], x[d]) - coord[4][d] - 1`. -/
def rowIdx (mesh : MeshM) (x : Nat → ℚ) : List Nat → Except String (List Int)
  | [] => .ok []
  | d :: ds =>
    if mesh.min d ≥ x d ∨ mesh.max d ≤ x d then
      .error "body coordinate is outside domain!"
    else
      match rowIdx mesh x ds with
      | .error e => .error e
      | .ok t => .ok (((upperBoundIdx (mesh.coord4 d) (x d) : Int) - 1) :: t)

/-- The outer loop of `updateMeshIdx` over the locally owned markers. -/
def updateMeshIdxAux (mesh : MeshM) (dim : Nat) (coords : Nat → Nat → ℚ) :
    List Nat → Except String (List (List Int))
  | [] => .ok []
  | i :: is =>
    match rowIdx mesh (coords i) (List.range dim) with
    | .error e => .error e
    | .ok row =>
      match updateMeshIdxAux mesh dim coords is with
      | .error e => .error e
      | .ok rest => .ok (row :: rest)

/-- The member `SingleBodyPoints::updateMeshIdx(mesh)`: for every locally owned marker
`i ∈ [bgPt, edPt)` and every dimension `d < dim`, check the coordinate
against the domain bounds and record the background pressure-cell index in
`meshIdx[i - bgPt][d]`. -/
def updateMeshIdx (mesh : MeshM) (dim bgPt edPt : Nat)
    (coords : Nat → Nat → ℚ) : Except String (List (List Int)) :=
  updateMeshIdxAux mesh dim coords
    ((List.range (edPt - bgPt)).map (fun c => bgPt + c))

/-! ## Marker partitioner: averaged forces (`calculateAvgForces`) -/

/-- The accumulation loop of `calculateAvgForces` for one degree of freedom
`dof` on one rank: starting from `fAvgLocal[dof] = 0.0`, subtract
`fArry[i][dof]` (the force applied to the fluid) for the `n` markers
`i = bg, ..., bg + n - 1`. -/
def fAvgLocalAcc (f : Nat → Nat → ℚ) (dof bg : Nat) : Nat → ℚ
  | 0 => 0
  | n + 1 => fAvgLocalAcc f dof bg n - f (bg + n) dof

/-- The member `SingleBodyPoints::calculateAvgForces(f, fAvg)` as computed on any one of
the `P` ranks: every rank accumulates its local negated sums over its own
block `[bgPt, edPt)` and `MPI_Allreduce(..., MPI_SUM, ...)` adds the local
vectors componentwise, leaving the identical `dim`-vector on every rank. -/
def calculateAvgForces (dim N P : Nat) (f : Nat → Nat → ℚ) : List ℚ :=
  (List.range dim).map (fun dof =>
    ∑ r ∈ Finset.range P,
      fAvgLocalAcc f dof (dmdaBlockStart N P r) (dmdaBlockSize N P r))

/-- The vector observed on rank `rank` after `calculateAvgForces` returns:
`MPI_Allreduce` with `MPI_SUM` delivers the same componentwise-summed vector
to every rank of the communicator, so the observed result does not depend on
`rank`. -/
def avgForcesOnRank (dim N P : Nat) (f : Nat → Nat → ℚ) (_rank : Nat) : List ℚ :=
  calculateAvgForces dim N P f

/-! ## Marker partitioner: body I/O (`writeBody`, `init`) -/

/-- The member `SingleBodyPoints::writeBody(filepath)`: for `dim == 3` print one line
`coords[k][0] coords[k][1] coords[k][2]` per marker `k = 0..nPts-1`; for
`dim == 2` one line with two components; any other `dim` hits
`SETERRQ(..., PETSC_ERR_FILE_WRITE, "Function only supports 2D and 3D
bodies.")`.  The result pairs the sequence of printed rows with the
member `coords`, which the method leaves untouched. -/
def writeBody (dim : Nat) (coords : List (List ℚ)) :
    Except String (List (List ℚ) × List (List ℚ)) :=
  if dim = 3 then
    .ok (coords.map (fun row => [row.getD 0 0, row.getD 1 0, row.getD 2 0]),
         coords)
  else if dim = 2 then
    .ok (coords.map (fun row => [row.getD 0 0, row.getD 1 0]), coords)
  else
    .error "Function only supports 2D and 3D bodies."

/-- The dimension-mismatch check of `SingleBodyPoints::init`: it evaluates
`coords[0].size()` and compares it with `dim`
(`SETERRQ(..., PETSC_ERR_FILE_READ, ...)` on mismatch).  `coords[0]` on a
`std::vector` is unchecked element access, undefined when `coords` is empty;
the embedding returns `none` exactly on that out-of-bounds access and
otherwise `some` holding the outcome of the check. -/
def initDimCheck (dim : Nat) (coords : List (List ℚ)) :
    Option (Except String Unit) :=
  match coords.head? with
  | none => none
  | some row =>
    some (if dim = row.length then .ok () else
      .error "The dimension of Lagrangian points are different than that of the background mesh!")

/-! ## Discrete delta kernel (tests/misc/delta_test.cpp) -/

/-- Modelled from the spec: the one-dimensional profile of the regularized
discrete delta function of Roma et al. (1999), whose implementation
(`petibm::delta::Roma_et_al_1999` in src/misc/delta.cpp) is absent from the
excerpt — only its unit test is present.  This is the standard
three-piece formula in the scaled distance `r = |distance| / h`:
`(1 + √(1 - 3 r²)) / 3` for `r ≤ 1/2`,
`(5 - 3 r - √(1 - 3 (1 - r)²)) / 6` for `1/2 < r ≤ 3/2`, and `0` beyond. -/
noncomputable def romaPhi (r : ℝ) : ℝ :=
  if r ≤ 1 / 2 then (1 + Real.sqrt (1 - 3 * r ^ 2)) / 3
  else if r ≤ 3 / 2 then
    (5 - 3 * r - Real.sqrt (1 - 3 * (1 - r) ^ 2)) / 6
  else 0

/-- Modelled from the spec: `petibm::delta::Roma_et_al_1999(rx, drx)`, the
kernel as a function of the signed distance `rx` and the mesh width
`drx = h`, evaluated on the scaled distance `|rx| / h`.  Per the kernel contract of the spec (zero beyond 1.5 mesh widths, peak value 2/3 at zero
distance, monotonically decreasing in `|distance|`) and the unit test
`delta_test.cpp` (which exercises `h = 1`). -/
noncomputable def Roma_et_al_1999 (rx h : ℝ) : ℝ :=
  romaPhi (|rx| / h)

/-! ## Helper lemmas: `std::upper_bound` -/

lemma upperBoundIdx_le_length {α : Type} [LinearOrder α] (l : List α) (x : α) :
    upperBoundIdx l x ≤ l.length := by
  induction l with
  | nil => simp [upperBoundIdx]
  | cons a t ih =>
    simp only [upperBoundIdx, List.length_cons]
    split
    · exact Nat.zero_le _
    · exact Nat.succ_le_succ ih

lemma upperBoundIdx_getD_le {α : Type} [LinearOrder α] (l : List α) (x d : α) :
    ∀ j, j < upperBoundIdx l x → l.getD j d ≤ x := by
  induction l with
  | nil => simp [upperBoundIdx]
  | cons a t ih =>
    intro j hj
    simp only [upperBoundIdx] at hj
    split at hj
    · omega
    · cases j with
      | zero => simpa using le_of_not_lt (by assumption)
      | succ j => exact ih j (by omega)

lemma upperBoundIdx_lt_getD {α : Type} [LinearOrder α] (l : List α) (x d : α)
    (h : upperBoundIdx l x < l.length) : x < l.getD (upperBoundIdx l x) d := by
  induction l with
  | nil => simp [upperBoundIdx] at h
  | cons a t ih =>
    by_cases hxa : x < a
    · simp [upperBoundIdx, hxa]
    · simp only [upperBoundIdx, if_neg hxa, List.length_cons] at h ⊢
      simpa using ih (by omega)

lemma upperBoundIdx_pos {α : Type} [LinearOrder α] (a : α) (t : List α) (x : α)
    (h : a ≤ x) : 1 ≤ upperBoundIdx (a :: t) x := by
  simp only [upperBoundIdx]
  split
  · exact absurd h (not_le_of_lt (by assumption))
  · omega

lemma upperBoundIdx_lt_length_of_last {α : Type} [LinearOrder α]
    (l : List α) (x m : α) (hl : l.getLast? = some m) (hx : x < m) :
    upperBoundIdx l x < l.length := by
  induction l with
  | nil => simp at hl
  | cons a t ih =>
    simp only [upperBoundIdx, List.length_cons]
    split
    · omega
    · cases t with
      | nil =>
        simp only [List.getLast?_singleton, Option.some.injEq] at hl
        subst hl
        exact absurd hx (by assumption)
      | cons b u =>
        have := ih (by simpa [List.getLast?_cons_cons] using hl)
        omega

/-- Uniqueness of the base-`dim` decomposition `i * dim + dof` with
`0 ≤ dof < dim`. -/
lemma flatten_inj {dim i₁ d₁ i₂ d₂ : Int} (h1 : 0 ≤ d₁) (h2 : d₁ < dim)
    (h3 : 0 ≤ d₂) (h4 : d₂ < dim) (h : i₁ * dim + d₁ = i₂ * dim + d₂) :
    i₁ = i₂ ∧ d₁ = d₂ := by
  have hdim : 0 < dim := lt_of_le_of_lt h1 h2
  have hi : i₁ = i₂ := by
    by_contra hne
    rcases lt_or_gt_of_ne hne with hlt | hgt
    · have : i₁ + 1 ≤ i₂ := hlt
      nlinarith
    · have : i₂ + 1 ≤ i₁ := hgt
      nlinarith
  subst hi
  exact ⟨rfl, by linarith⟩

/-! ## Claim theorems: dispatcher and global indexing -/

/-- C1 counterexample: the claim says a boundary-type tag not among the five
recognized ones makes `createSingleBoundary` fail with a configuration
error, but the `switch` has no `default` case: tag 5 falls through and the
call returns success with the output parameter still unset. -/
theorem createSingleBoundary_unrecognized_counterexample :
    createSingleBoundary 5 none = .ok none ∧
    ¬∃ e, createSingleBoundary 5 none = .error e := by
  refine ⟨rfl, ?_⟩
  rintro ⟨e, he⟩
  exact Except.noConfusion he

/-- C1 (amended): each of the five recognized boundary-type tags constructs
and stores the matching strategy object, while a tag not among the five
falls through the `switch` and returns success with the output parameter
left unchanged (no configuration error is raised). -/
theorem createSingleBoundary_dispatch (bcType : Nat) (bd : Option Strategy) :
    createSingleBoundary NOBC bd = .ok (some .base) ∧
    createSingleBoundary PERIODIC bd = .ok (some .periodic) ∧
    createSingleBoundary DIRICHLET bd = .ok (some .dirichlet) ∧
    createSingleBoundary NEUMANN bd = .ok (some .neumann) ∧
    createSingleBoundary CONVECTIVE bd = .ok (some .convective) ∧
    (CONVECTIVE < bcType → createSingleBoundary bcType bd = .ok bd) := by
  refine ⟨rfl, rfl, rfl, rfl, rfl, ?_⟩
  intro hgt
  simp only [createSingleBoundary, NOBC, PERIODIC, DIRICHLET, NEUMANN,
    CONVECTIVE] at hgt ⊢
  have h0 : bcType ≠ 0 := by omega
  have h1 : bcType ≠ 1 := by omega
  have h2 : bcType ≠ 2 := by omega
  have h3 : bcType ≠ 3 := by omega
  have h4 : bcType ≠ 4 := by omega
  simp [h0, h1, h2, h3, h4]

/-- C1 witness: the amended dispatch behaviour at the concrete
unrecognized tag 7. -/
theorem createSingleBoundary_dispatch_witness :
    CONVECTIVE < 7 ∧ createSingleBoundary 7 none = .ok none :=
  ⟨by decide, (createSingleBoundary_dispatch 7 none).2.2.2.2.2 (by decide)⟩

/-- C6: `getGlobalIndex(i, dof, idx)` returns the flattened index
`i * dim + dof` exactly when both `i ∈ [0, nPts)` and `dof ∈ [0, dim)`,
and fails with an out-of-range error exactly when either check fails. -/
theorem getGlobalIndex_spec (nPts dim : Nat) (i dof idx : Int) :
    (getGlobalIndex nPts dim i dof = .ok idx ↔
      0 ≤ i ∧ i < nPts ∧ 0 ≤ dof ∧ dof < dim ∧ idx = i * dim + dof) ∧
    ((∃ e, getGlobalIndex nPts dim i dof = .error e) ↔
      i < 0 ∨ (nPts : Int) ≤ i ∨ dof < 0 ∨ (dim : Int) ≤ dof) := by
  unfold getGlobalIndex
  split_ifs with hi hd
  · constructor
    · constructor
      · intro he
        exact absurd he (by simp)
      · intro ⟨ha, hb, _⟩
        rcases hi with hi | hi
        · exact absurd hi (by omega)
        · exact absurd hi (by omega)
    · simp only [Except.error.injEq, exists_eq]
      tauto
  · constructor
    · constructor
      · intro he
        exact absurd he (by simp)
      · intro ⟨_, _, hc, hd', _⟩
        rcases hd with hd | hd
        · exact absurd hd (by omega)
        · exact absurd hd (by omega)
    · simp only [Except.error.injEq, exists_eq]
      tauto
  · constructor
    · simp only [Except.ok.injEq]
      constructor
      · intro he
        push_neg at hi hd
        exact ⟨hi.1, by exact_mod_cast hi.2, hd.1, by exact_mod_cast hd.2,
          he.symm⟩
      · intro ⟨_, _, _, _, he⟩
        exact he.symm
    · constructor
      · rintro ⟨e, he⟩
        exact he.elim
      · intro hcase
        push_neg at hi hd
        rcases hcase with hc | hc | hc | hc <;> [skip; skip; skip; skip] <;>
          first
          | exact absurd hc (not_lt.mpr hi.1)
          | exact absurd hc (not_le.mpr hi.2)
          | exact absurd hc (not_lt.mpr hd.1)
          | exact absurd hc (not_le.mpr hd.2)

/-! ## Helper lemmas: block partition and offset table -/

lemma dmdaBlockStart_formula (N P : Nat) :
    ∀ r, dmdaBlockStart N P r = r * (N / P) + min r (N % P) := by
  intro r
  induction r with
  | zero => simp [dmdaBlockStart]
  | succ r ih =>
    simp only [dmdaBlockStart, dmdaBlockSize, ih]
    by_cases hr : r < N % P
    · have h1 : min r (N % P) = r := min_eq_left (le_of_lt hr)
      have h2 : min (r + 1) (N % P) = r + 1 := min_eq_left hr
      simp [hr, h1, h2]
      ring
    · have h1 : min r (N % P) = N % P := min_eq_right (le_of_not_lt hr)
      have h2 : min (r + 1) (N % P) = N % P := min_eq_right (by omega)
      simp [hr, h1, h2]
      ring

lemma dmdaBlockStart_top (N P : Nat) (hP : 1 ≤ P) :
    dmdaBlockStart N P P = N := by
  rw [dmdaBlockStart_formula]
  have hmod : N % P < P := Nat.mod_lt _ (by omega)
  rw [min_eq_right (le_of_lt hmod)]
  exact Nat.div_add_mod N P

lemma dmdaBlockStart_mono (N P : Nat) : Monotone (dmdaBlockStart N P) :=
  monotone_nat_of_le_succ (fun _ => Nat.le_add_right _ _)

lemma dmdaBlockStart_sum (N P : Nat) :
    ∀ p, dmdaBlockStart N P p = ∑ r ∈ Finset.range p, dmdaBlockSize N P r := by
  intro p
  induction p with
  | zero => simp [dmdaBlockStart]
  | succ p ih => simp [dmdaBlockStart, Finset.sum_range_succ, ih]

lemma cover_of_fn (f : Nat → Nat) (P : Nat) :
    ∀ i, f 0 ≤ i → i < f P → ∃ r, r < P ∧ f r ≤ i ∧ i < f (r + 1) := by
  induction P with
  | zero =>
    intro i h1 h2
    omega
  | succ P ih =>
    intro i h1 h2
    by_cases hlt : i < f P
    · obtain ⟨r, hr, ha, hb⟩ := ih i h1 hlt
      exact ⟨r, by omega, ha, hb⟩
    · exact ⟨P, by omega, le_of_not_lt hlt, h2⟩

lemma block_cover (N P : Nat) :
    ∀ i, i < dmdaBlockStart N P P →
      ∃ r, r < P ∧ dmdaBlockStart N P r ≤ i ∧ i < dmdaBlockStart N P (r + 1) := by
  intro i hi
  exact cover_of_fn (dmdaBlockStart N P) P i (by simp [dmdaBlockStart]) hi

lemma scanSum_length (l : List Nat) : ∀ acc, (scanSum l acc).length = l.length := by
  induction l with
  | nil => intro acc; rfl
  | cons a t ih => intro acc; simp [scanSum, ih]

lemma scanSum_getD (l : List Nat) :
    ∀ acc r, r < l.length →
      (scanSum l acc).getD r 0 = acc + (l.take (r + 1)).sum := by
  induction l with
  | nil => intro acc r hr; simp at hr
  | cons a t ih =>
    intro acc r hr
    cases r with
    | zero => simp [scanSum]
    | succ r =>
      simp only [scanSum, List.getD_cons_succ, List.take_succ_cons,
        List.sum_cons]
      rw [ih (acc + a) r (by simpa using Nat.lt_of_succ_lt_succ hr)]
      omega

lemma sum_map_range_blockScaled (N P dim : Nat) :
    ∀ r, ((List.range r).map (fun q => dim * dmdaBlockSize N P q)).sum =
      dim * dmdaBlockStart N P r := by
  intro r
  induction r with
  | zero => simp [dmdaBlockStart]
  | succ r ih =>
    rw [List.range_succ, List.map_append, List.sum_append]
    simp only [List.map_cons, List.map_nil, List.sum_cons, List.sum_nil, ih,
      dmdaBlockStart]
    ring

lemma computeOffsets_cons (a : Nat) (t : List Nat) :
    computeOffsets (a :: t) = scanSum (0 :: (a :: t).dropLast) 0 := rfl

lemma computeOffsets_length (l : List Nat) :
    (computeOffsets l).length = l.length := by
  cases l with
  | nil => rfl
  | cons a t =>
    rw [computeOffsets_cons, scanSum_length]
    simp [List.length_dropLast]

lemma offsetsAllProcs_length (N P dim : Nat) :
    (offsetsAllProcs N P dim).length = P := by
  unfold offsetsAllProcs
  rw [computeOffsets_length]
  simp

lemma computeOffsets_getD (l : List Nat) (hne : l ≠ []) (r : Nat)
    (hr : r < l.length) : (computeOffsets l).getD r 0 = (l.take r).sum := by
  obtain ⟨a, t, rfl⟩ := List.exists_cons_of_ne_nil hne
  simp only [List.length_cons] at hr
  have hlen : r < (0 :: (a :: t).dropLast).length := by
    simp only [List.length_cons, List.length_dropLast]
    omega
  rw [computeOffsets_cons, scanSum_getD _ 0 r hlen]
  simp only [List.take_succ_cons, List.sum_cons, Nat.zero_add]
  congr 1
  rw [List.dropLast_eq_take, List.take_take]
  congr 1
  simp only [List.length_cons]
  omega

lemma offsetsAllProcs_getD (N P dim : Nat) (r : Nat) (hr : r < P) :
    (offsetsAllProcs N P dim).getD r 0 = dim * dmdaBlockStart N P r := by
  unfold offsetsAllProcs
  rw [computeOffsets_getD _ (by simp; omega) r (by simpa using hr)]
  rw [← List.map_take, List.take_range, min_eq_left (le_of_lt hr)]
  exact sum_map_range_blockScaled N P dim r

/-- C4: for `N` markers on `P` ranks, the rank-local ranges
`[bgPt_r, edPt_r)` of the 1-D block decomposition form a contiguous,
gap-free, non-overlapping cover of `[0, N)` with the local counts summing to
`N`, and the offset table built by `createDMDA` is the exclusive prefix sum
of `dim * nLclPts_r` (`offsets[0] = 0`,
`offsets[r+1] = offsets[r] + dim * nLclPts_r`), hence monotonically
non-decreasing. -/
theorem partition_offsets_spec (N P dim : Nat) (hP : 1 ≤ P) :
    (∑ r ∈ Finset.range P, dmdaBlockSize N P r) = N ∧
    (∀ i, i < N → ∃! r, r < P ∧ dmdaBlockStart N P r ≤ i ∧
        i < dmdaBlockStart N P r + dmdaBlockSize N P r) ∧
    (offsetsAllProcs N P dim).length = P ∧
    (offsetsAllProcs N P dim).getD 0 0 = 0 ∧
    (∀ r, r + 1 < P →
      (offsetsAllProcs N P dim).getD (r + 1) 0 =
        (offsetsAllProcs N P dim).getD r 0 + dim * dmdaBlockSize N P r) ∧
    (∀ r s, r ≤ s → s < P →
      (offsetsAllProcs N P dim).getD r 0 ≤ (offsetsAllProcs N P dim).getD s 0) := by
  refine ⟨?_, ?_, offsetsAllProcs_length N P dim, ?_, ?_, ?_⟩
  · rw [← dmdaBlockStart_sum]
    exact dmdaBlockStart_top N P hP
  · intro i hi
    obtain ⟨r, hr, h1, h2⟩ :=
      block_cover N P i (by rwa [dmdaBlockStart_top N P hP])
    refine ⟨r, ⟨hr, h1, h2⟩, ?_⟩
    rintro s ⟨hs, h3, h4⟩
    by_contra hne
    rcases lt_or_gt_of_ne hne with hlt | hgt
    · have : dmdaBlockStart N P (s + 1) ≤ dmdaBlockStart N P r :=
        dmdaBlockStart_mono N P hlt
      have h4' : i < dmdaBlockStart N P (s + 1) := h4
      omega
    · have : dmdaBlockStart N P (r + 1) ≤ dmdaBlockStart N P s :=
        dmdaBlockStart_mono N P hgt
      have h2' : i < dmdaBlockStart N P (r + 1) := h2
      omega
  · rw [offsetsAllProcs_getD N P dim 0 (by omega)]
    simp [dmdaBlockStart]
  · intro r hr
    rw [offsetsAllProcs_getD N P dim (r + 1) hr,
      offsetsAllProcs_getD N P dim r (by omega)]
    show dim * (dmdaBlockStart N P r + dmdaBlockSize N P r) = _
    ring
  · intro r s hrs hs
    rw [offsetsAllProcs_getD N P dim r (by omega),
      offsetsAllProcs_getD N P dim s hs]
    exact Nat.mul_le_mul_left dim (dmdaBlockStart_mono N P hrs)

/-- C4 witness: the partition and offset-table invariants at `N = 5`
markers, `P = 2` ranks, `dim = 2`. -/
theorem partition_offsets_spec_witness :
    1 ≤ 2 ∧
    ((∑ r ∈ Finset.range 2, dmdaBlockSize 5 2 r) = 5 ∧
     (∀ i, i < 5 → ∃! r, r < 2 ∧ dmdaBlockStart 5 2 r ≤ i ∧
         i < dmdaBlockStart 5 2 r + dmdaBlockSize 5 2 r) ∧
     (offsetsAllProcs 5 2 2).length = 2 ∧
     (offsetsAllProcs 5 2 2).getD 0 0 = 0 ∧
     (∀ r, r + 1 < 2 →
       (offsetsAllProcs 5 2 2).getD (r + 1) 0 =
         (offsetsAllProcs 5 2 2).getD r 0 + 2 * dmdaBlockSize 5 2 r) ∧
     (∀ r s, r ≤ s → s < 2 →
       (offsetsAllProcs 5 2 2).getD r 0 ≤ (offsetsAllProcs 5 2 2).getD s 0)) :=
  ⟨by decide, partition_offsets_spec 5 2 2 (by decide)⟩

lemma getGlobalIndex_ok (nPts dim : Nat) (i dof idx : Int)
    (h : getGlobalIndex nPts dim i dof = .ok idx) :
    0 ≤ i ∧ i < nPts ∧ 0 ≤ dof ∧ dof < dim ∧ idx = i * dim + dof := by
  unfold getGlobalIndex at h
  by_cases h1 : i < 0 ∨ (nPts : Int) ≤ i
  · rw [if_pos h1] at h
    exact absurd h (by simp)
  · rw [if_neg h1] at h
    by_cases h2 : dof < 0 ∨ (dim : Int) ≤ dof
    · rw [if_pos h2] at h
      exact absurd h (by simp)
    · rw [if_neg h2] at h
      push_neg at h1 h2
      simp only [Except.ok.injEq] at h
      exact ⟨h1.1, h1.2, h2.1, h2.2, h.symm⟩

lemma offsetsAllProcs_getD_zero (N P dim : Nat) (hP : 1 ≤ P) :
    (offsetsAllProcs N P dim).getD 0 0 = 0 := by
  rw [offsetsAllProcs_getD N P dim 0 (by omega)]
  simp [dmdaBlockStart]

/-- C5: the flattened global index map is injective on in-range inputs, and
the rank returned by `findProc(i)` is consistent with the offset table:
`offsets[p] ≤ i * dim`, with `i * dim` below the offset of the next rank;
`findProc` fails with an out-of-range error exactly when `i ∉ [0, N)`. -/
theorem findProc_globalIndex_spec (N P dim : Nat) (hP : 1 ≤ P) :
    (∀ i₁ d₁ i₂ d₂ idx : Int,
        getGlobalIndex N dim i₁ d₁ = .ok idx →
        getGlobalIndex N dim i₂ d₂ = .ok idx → i₁ = i₂ ∧ d₁ = d₂) ∧
    (∀ i : Int, ∀ p, findProc N dim (offsetsAllProcs N P dim) i = .ok p →
        p < P ∧
        (offsetsAllProcs N P dim).getD p 0 ≤ i.toNat * dim ∧
        (p + 1 < P →
          i.toNat * dim < (offsetsAllProcs N P dim).getD (p + 1) 0)) ∧
    (∀ i : Int,
        (∃ e, findProc N dim (offsetsAllProcs N P dim) i = .error e) ↔
        (i < 0 ∨ (N : Int) ≤ i)) := by
  refine ⟨?_, ?_, ?_⟩
  · intro i₁ d₁ i₂ d₂ idx h1 h2
    obtain ⟨ha1, _, hc1, hd1, he1⟩ := getGlobalIndex_ok N dim i₁ d₁ idx h1
    obtain ⟨_, _, hc2, hd2, he2⟩ := getGlobalIndex_ok N dim i₂ d₂ idx h2
    exact flatten_inj hc1 hd1 hc2 hd2 (he1 ▸ he2)
  · intro i p hok
    unfold findProc at hok
    by_cases hrange : i < 0 ∨ (N : Int) ≤ i
    · rw [if_pos hrange] at hok
      exact absurd hok (by simp)
    · rw [if_neg hrange] at hok
      simp only [Except.ok.injEq] at hok
      subst hok
      have hlen : (offsetsAllProcs N P dim).length = P :=
        offsetsAllProcs_length N P dim
      have hne : offsetsAllProcs N P dim ≠ [] := by
        intro hcon
        rw [hcon] at hlen
        simp at hlen
        omega
      have hub1 : 1 ≤ upperBoundIdx (offsetsAllProcs N P dim) (i.toNat * dim) := by
        obtain ⟨a, t, hl⟩ := List.exists_cons_of_ne_nil hne
        have ha : a = 0 := by
          have := offsetsAllProcs_getD_zero N P dim hP
          rw [hl] at this
          simpa using this
        rw [hl]
        exact upperBoundIdx_pos a t _ (by omega)
      have hub2 : upperBoundIdx (offsetsAllProcs N P dim) (i.toNat * dim) ≤ P := by
        have := upperBoundIdx_le_length (offsetsAllProcs N P dim) (i.toNat * dim)
        omega
      refine ⟨by omega, ?_, ?_⟩
      · exact upperBoundIdx_getD_le _ _ 0 _ (by omega)
      · intro hpp
        have heq : upperBoundIdx (offsetsAllProcs N P dim) (i.toNat * dim) - 1 + 1 =
            upperBoundIdx (offsetsAllProcs N P dim) (i.toNat * dim) := by omega
        rw [heq]
        exact upperBoundIdx_lt_getD _ _ 0 (by omega)
  · intro i
    unfold findProc
    split_ifs with h
    · exact ⟨fun _ => h, fun _ => ⟨_, rfl⟩⟩
    · constructor
      · rintro ⟨e, he⟩
        exact he.elim
      · intro hc
        exact absurd hc h

/-- C5 witness: the injectivity and round-trip consistency at `N = 5`,
`P = 2`, `dim = 2`. -/
theorem findProc_globalIndex_spec_witness :
    1 ≤ 2 ∧
    ((∀ i₁ d₁ i₂ d₂ idx : Int,
        getGlobalIndex 5 2 i₁ d₁ = .ok idx →
        getGlobalIndex 5 2 i₂ d₂ = .ok idx → i₁ = i₂ ∧ d₁ = d₂) ∧
     (∀ i : Int, ∀ p, findProc 5 2 (offsetsAllProcs 5 2 2) i = .ok p →
        p < 2 ∧
        (offsetsAllProcs 5 2 2).getD p 0 ≤ i.toNat * 2 ∧
        (p + 1 < 2 →
          i.toNat * 2 < (offsetsAllProcs 5 2 2).getD (p + 1) 0)) ∧
     (∀ i : Int,
        (∃ e, findProc 5 2 (offsetsAllProcs 5 2 2) i = .error e) ↔
        (i < 0 ∨ (5 : Int) ≤ i))) :=
  ⟨by decide, findProc_globalIndex_spec 5 2 2 (by decide)⟩

/-! ## Helper lemmas: `updateMeshIdx` -/

lemma rowIdx_ok (mesh : MeshM) (x : Nat → ℚ) :
    ∀ (ds : List Nat) (row : List Int), rowIdx mesh x ds = .ok row →
      row.length = ds.length ∧
      ∀ j, j < ds.length →
        (mesh.min (ds.getD j 0) < x (ds.getD j 0) ∧
         x (ds.getD j 0) < mesh.max (ds.getD j 0)) ∧
        row.getD j 0 =
          (upperBoundIdx (mesh.coord4 (ds.getD j 0)) (x (ds.getD j 0)) : Int) - 1 := by
  intro ds
  induction ds with
  | nil =>
    intro row h
    simp only [rowIdx, Except.ok.injEq] at h
    subst h
    exact ⟨rfl, fun j hj => by simp at hj⟩
  | cons d ds ih =>
    intro row h
    simp only [rowIdx] at h
    by_cases hc : mesh.min d ≥ x d ∨ mesh.max d ≤ x d
    · rw [if_pos hc] at h
      exact absurd h (by simp)
    · rw [if_neg hc] at h
      push_neg at hc
      cases hrec : rowIdx mesh x ds with
      | error e =>
        rw [hrec] at h
        exact absurd h (by simp)
      | ok t =>
        rw [hrec] at h
        simp only [Except.ok.injEq] at h
        subst h
        obtain ⟨hlen, hall⟩ := ih t hrec
        refine ⟨by simp [hlen], ?_⟩
        intro j hj
        cases j with
        | zero => exact ⟨⟨hc.1, hc.2⟩, rfl⟩
        | succ j =>
          simp only [List.getD_cons_succ]
          exact hall j (by simpa using Nat.lt_of_succ_lt_succ hj)

lemma rowIdx_error_iff (mesh : MeshM) (x : Nat → ℚ) :
    ∀ ds : List Nat, (∃ e, rowIdx mesh x ds = .error e) ↔
      ∃ d ∈ ds, (x d ≤ mesh.min d ∨ mesh.max d ≤ x d) := by
  intro ds
  induction ds with
  | nil =>
    constructor
    · rintro ⟨e, he⟩
      exact absurd he (by simp [rowIdx])
    · rintro ⟨d, hd, _⟩
      exact absurd hd (by simp)
  | cons d ds ih =>
    simp only [rowIdx]
    by_cases hc : mesh.min d ≥ x d ∨ mesh.max d ≤ x d
    · rw [if_pos hc]
      constructor
      · intro _
        exact ⟨d, by simp, by simpa [ge_iff_le] using hc⟩
      · intro _
        exact ⟨_, rfl⟩
    · rw [if_neg hc]
      push_neg at hc
      cases hrec : rowIdx mesh x ds with
      | error e =>
        constructor
        · intro _
          obtain ⟨d', hd', hcond⟩ := ih.mp ⟨e, hrec⟩
          exact ⟨d', by simp [hd'], hcond⟩
        · intro _
          exact ⟨e, rfl⟩
      | ok t =>
        constructor
        · rintro ⟨e, he⟩
          exact absurd he (by simp)
        · rintro ⟨d', hd', hcond⟩
          rcases List.mem_cons.mp hd' with rfl | hmem
          · rcases hcond with hcond | hcond
            · exact absurd hcond (not_le.mpr hc.1)
            · exact absurd hcond (not_le.mpr hc.2)
          · obtain ⟨e, he⟩ := ih.mpr ⟨d', hmem, hcond⟩
            rw [hrec] at he
            exact absurd he (by simp)

lemma updateMeshIdxAux_ok (mesh : MeshM) (dim : Nat) (coords : Nat → Nat → ℚ) :
    ∀ (is : List Nat) (mi : List (List Int)),
      updateMeshIdxAux mesh dim coords is = .ok mi →
      mi.length = is.length ∧
      ∀ c, c < is.length →
        rowIdx mesh (coords (is.getD c 0)) (List.range dim) =
          .ok (mi.getD c []) := by
  intro is
  induction is with
  | nil =>
    intro mi h
    simp only [updateMeshIdxAux, Except.ok.injEq] at h
    subst h
    exact ⟨rfl, fun c hc => by simp at hc⟩
  | cons i is ih =>
    intro mi h
    simp only [updateMeshIdxAux] at h
    cases hrow : rowIdx mesh (coords i) (List.range dim) with
    | error e =>
      rw [hrow] at h
      exact absurd h (by simp)
    | ok row =>
      rw [hrow] at h
      cases hrec : updateMeshIdxAux mesh dim coords is with
      | error e =>
        rw [hrec] at h
        exact absurd h (by simp)
      | ok rest =>
        rw [hrec] at h
        simp only [Except.ok.injEq] at h
        subst h
        obtain ⟨hlen, hall⟩ := ih rest hrec
        refine ⟨by simp [hlen], ?_⟩
        intro c hc
        cases c with
        | zero => simpa using hrow
        | succ c =>
          simp only [List.getD_cons_succ]
          exact hall c (by simpa using Nat.lt_of_succ_lt_succ hc)

lemma updateMeshIdxAux_error_iff (mesh : MeshM) (dim : Nat)
    (coords : Nat → Nat → ℚ) :
    ∀ is : List Nat,
      (∃ e, updateMeshIdxAux mesh dim coords is = .error e) ↔
      ∃ i ∈ is, ∃ e, rowIdx mesh (coords i) (List.range dim) = .error e := by
  intro is
  induction is with
  | nil =>
    constructor
    · rintro ⟨e, he⟩
      exact absurd he (by simp [updateMeshIdxAux])
    · rintro ⟨i, hi, _⟩
      exact absurd hi (by simp)
  | cons i is ih =>
    simp only [updateMeshIdxAux]
    cases hrow : rowIdx mesh (coords i) (List.range dim) with
    | error e =>
      constructor
      · intro _
        exact ⟨i, by simp, e, hrow⟩
      · intro _
        exact ⟨e, rfl⟩
    | ok row =>
      cases hrec : updateMeshIdxAux mesh dim coords is with
      | error e =>
        constructor
        · intro _
          obtain ⟨i', hi', he'⟩ := ih.mp ⟨e, hrec⟩
          exact ⟨i', by simp [hi'], he'⟩
        · intro _
          exact ⟨e, rfl⟩
      | ok rest =>
        constructor
        · rintro ⟨e, he⟩
          exact absurd he (by simp)
        · rintro ⟨i', hi', e, he⟩
          rcases List.mem_cons.mp hi' with rfl | hmem
          · rw [hrow] at he
            exact absurd he (by simp)
          · obtain ⟨e', he'⟩ := ih.mpr ⟨i', hmem, e, he⟩
            rw [hrec] at he'
            exact absurd he' (by simp)

/-- C3: `updateMeshIdx(mesh)` fails with an error if and only if some locally
owned marker has, in some dimension, a coordinate that is not strictly inside
the open interval `(min_d, max_d)` of the mesh domain (equality with a bound
also fails); when it fails it returns the error rather than a clamped
result. -/
theorem updateMeshIdx_fail_iff (mesh : MeshM) (dim bgPt edPt : Nat)
    (coords : Nat → Nat → ℚ) :
    (∃ e, updateMeshIdx mesh dim bgPt edPt coords = .error e) ↔
    ∃ i, bgPt ≤ i ∧ i < edPt ∧ ∃ d, d < dim ∧
      (coords i d ≤ mesh.min d ∨ mesh.max d ≤ coords i d) := by
  unfold updateMeshIdx
  rw [updateMeshIdxAux_error_iff]
  constructor
  · rintro ⟨i, hmem, he⟩
    simp only [List.mem_map, List.mem_range] at hmem
    obtain ⟨c, hc, rfl⟩ := hmem
    obtain ⟨d, hd, hcond⟩ := (rowIdx_error_iff mesh _ _).mp he
    exact ⟨bgPt + c, by omega, by omega, d, by simpa using hd, hcond⟩
  · rintro ⟨i, h1, h2, d, hd, hcond⟩
    refine ⟨i, ?_, ?_⟩
    · simp only [List.mem_map, List.mem_range]
      exact ⟨i - bgPt, by omega, by omega⟩
    · exact (rowIdx_error_iff mesh _ _).mpr ⟨d, by simpa using hd, hcond⟩

/-- C2 counterexample: for the 1-D mesh with cell boundaries
`[0, 1, 2, 3]`, domain `(0, 3)`, and a single marker located exactly on the
interior cell boundary `1`, `updateMeshIdx` succeeds and stores index `1` —
but entry `1` of the boundary array equals the marker coordinate, so the
stored index is not the index of the last boundary strictly less than the
marker coordinate (that would be index `0`). -/
theorem updateMeshIdx_strict_counterexample :
    updateMeshIdx ⟨fun _ => 0, fun _ => 3, fun _ => [0, 1, 2, 3]⟩ 1 0 1
        (fun _ _ => 1) = .ok [[1]] ∧
    ¬(([0, 1, 2, 3] : List ℚ).getD 1 0 < (1 : ℚ)) := by
  constructor
  · norm_num [updateMeshIdx, updateMeshIdxAux, rowIdx, upperBoundIdx,
      List.range_succ]
  · norm_num

/-- C2 (amended): after a successful `updateMeshIdx`, assuming the per-direction
boundary array of the mesh starts at `min_d` and ends at `max_d`, each
stored mesh index `k` is the index of the last boundary less than **or equal
to** the marker coordinate: `coord[k] ≤ x` and `x < coord[k+1]`
(upper-bound minus one; strictness fails when `x` equals a boundary). -/
theorem updateMeshIdx_indices (mesh : MeshM) (dim bgPt edPt : Nat)
    (coords : Nat → Nat → ℚ) (mi : List (List Int))
    (hhead : ∀ d, d < dim → (mesh.coord4 d).getD 0 0 = mesh.min d)
    (hlast : ∀ d, d < dim → (mesh.coord4 d).getLast? = some (mesh.max d))
    (hok : updateMeshIdx mesh dim bgPt edPt coords = .ok mi) :
    ∀ c, c < edPt - bgPt → ∀ d, d < dim → ∃ k : Nat,
      (mi.getD c []).getD d 0 = (k : Int) ∧
      k + 1 < (mesh.coord4 d).length ∧
      (mesh.coord4 d).getD k 0 ≤ coords (bgPt + c) d ∧
      coords (bgPt + c) d < (mesh.coord4 d).getD (k + 1) 0 := by
  intro c hc d hd
  unfold updateMeshIdx at hok
  obtain ⟨hlen, hall⟩ := updateMeshIdxAux_ok mesh dim coords _ mi hok
  have hclen : c < ((List.range (edPt - bgPt)).map (fun c => bgPt + c)).length := by
    simpa using hc
  have hrow := hall c hclen
  have hgetc : ((List.range (edPt - bgPt)).map (fun c => bgPt + c)).getD c 0 =
      bgPt + c := by
    rw [List.getD_eq_getElem _ _ hclen]
    simp
  rw [hgetc] at hrow
  obtain ⟨_, hj⟩ := rowIdx_ok mesh (coords (bgPt + c)) _ _ hrow
  have hdlen : d < (List.range dim).length := by simpa using hd
  obtain ⟨⟨hmin, hmax⟩, hval⟩ := hj d hdlen
  have hgetd : (List.range dim).getD d 0 = d := by
    rw [List.getD_eq_getElem _ _ hdlen]
    simp
  rw [hgetd] at hmin hmax hval
  set x := coords (bgPt + c) d with hx
  set l := mesh.coord4 d with hldef
  have hne : l ≠ [] := by
    intro hcon
    have hl := hlast d hd
    rw [← hldef, hcon] at hl
    simp at hl
  have hub1 : 1 ≤ upperBoundIdx l x := by
    obtain ⟨a, t, hl⟩ := List.exists_cons_of_ne_nil hne
    have ha : a ≤ x := by
      have h0 := hhead d hd
      rw [← hldef, hl] at h0
      simp only [List.getD_cons_zero] at h0
      rw [h0]
      exact le_of_lt hmin
    rw [hl]
    exact upperBoundIdx_pos a t x ha
  have hub2 : upperBoundIdx l x < l.length :=
    upperBoundIdx_lt_length_of_last l x (mesh.max d) (hlast d hd) hmax
  refine ⟨upperBoundIdx l x - 1, ?_, by omega, ?_, ?_⟩
  · rw [hval]
    omega
  · exact upperBoundIdx_getD_le l x 0 _ (by omega)
  · have heq : upperBoundIdx l x - 1 + 1 = upperBoundIdx l x := by omega
    rw [heq]
    exact upperBoundIdx_lt_getD l x 0 hub2

/-- C2 witness: the amended index property at the concrete 1-D mesh with
boundaries `[0, 1, 2, 3]` and a single marker at coordinate `1` (the stored
index is `1`, with `coord[1] = 1 ≤ 1 < 2 = coord[2]`). -/
theorem updateMeshIdx_indices_witness :
    updateMeshIdx ⟨fun _ => 0, fun _ => 3, fun _ => [0, 1, 2, 3]⟩ 1 0 1
        (fun _ _ => 1) = .ok [[1]] ∧
    (∀ c, c < 1 - 0 → ∀ d, d < 1 → ∃ k : Nat,
      (([[1]] : List (List Int)).getD c []).getD d 0 = (k : Int) ∧
      k + 1 <
        ((⟨fun _ => 0, fun _ => 3, fun _ => [0, 1, 2, 3]⟩ : MeshM).coord4 d).length ∧
      ((⟨fun _ => 0, fun _ => 3, fun _ => [0, 1, 2, 3]⟩ : MeshM).coord4 d).getD k 0 ≤
        (fun _ _ => (1 : ℚ)) (0 + c) d ∧
      (fun _ _ => (1 : ℚ)) (0 + c) d <
        ((⟨fun _ => 0, fun _ => 3, fun _ => [0, 1, 2, 3]⟩ : MeshM).coord4 d).getD (k + 1) 0) := by
  have hok : updateMeshIdx ⟨fun _ => 0, fun _ => 3, fun _ => [0, 1, 2, 3]⟩ 1 0 1
      (fun _ _ => 1) = .ok [[1]] := by
    norm_num [updateMeshIdx, updateMeshIdxAux, rowIdx, upperBoundIdx,
      List.range_succ]
  exact ⟨hok,
    updateMeshIdx_indices ⟨fun _ => 0, fun _ => 3, fun _ => [0, 1, 2, 3]⟩ 1 0 1
      (fun _ _ => 1) [[1]] (fun _ _ => rfl) (fun _ _ => rfl) hok⟩

/-! ## Helper lemmas: `calculateAvgForces` -/

lemma fAvgLocalAcc_eq (f : Nat → Nat → ℚ) (dof bg : Nat) :
    ∀ n, fAvgLocalAcc f dof bg n = -∑ i ∈ Finset.range n, f (bg + i) dof := by
  intro n
  induction n with
  | zero => simp [fAvgLocalAcc]
  | succ n ih =>
    rw [Finset.sum_range_succ]
    simp only [fAvgLocalAcc, ih]
    ring

lemma sum_over_blocks (g : Nat → ℚ) (N P : Nat) :
    ∀ p, ∑ r ∈ Finset.range p,
        ∑ i ∈ Finset.range (dmdaBlockSize N P r), g (dmdaBlockStart N P r + i) =
      ∑ i ∈ Finset.range (dmdaBlockStart N P p), g i := by
  intro p
  induction p with
  | zero => simp [dmdaBlockStart]
  | succ p ih =>
    rw [Finset.sum_range_succ, ih]
    have hsucc : dmdaBlockStart N P (p + 1) =
        dmdaBlockStart N P p + dmdaBlockSize N P p := rfl
    have harg : dmdaBlockSize N P p =
        dmdaBlockStart N P (p + 1) - dmdaBlockStart N P p := by omega
    have hIco : ∑ i ∈ Finset.range (dmdaBlockSize N P p),
        g (dmdaBlockStart N P p + i) =
        ∑ i ∈ Finset.Ico (dmdaBlockStart N P p) (dmdaBlockStart N P (p + 1)), g i := by
      rw [Finset.sum_Ico_eq_sum_range, ← harg]
    rw [hIco, Finset.range_eq_Ico]
    exact Finset.sum_Ico_consecutive g (Nat.zero_le _)
      (by omega)

/-- C7: for every force field, `calculateAvgForces` produces in each
component the negation of the sum over all `N` markers (across all ranks) of
that component of the fluid-applied force, and the `MPI_Allreduce` leaves
the identical result vector on every rank. -/
theorem calculateAvgForces_spec (dim N P : Nat) (f : Nat → Nat → ℚ)
    (hP : 1 ≤ P) :
    (calculateAvgForces dim N P f).length = dim ∧
    (∀ dof, dof < dim →
      (calculateAvgForces dim N P f).getD dof 0 =
        -∑ i ∈ Finset.range N, f i dof) ∧
    (∀ r₁ r₂ : Nat,
      avgForcesOnRank dim N P f r₁ = avgForcesOnRank dim N P f r₂) := by
  refine ⟨by simp [calculateAvgForces], ?_, fun r₁ r₂ => rfl⟩
  intro dof hdof
  unfold calculateAvgForces
  have hget : ((List.range dim).map (fun dof =>
      ∑ r ∈ Finset.range P,
        fAvgLocalAcc f dof (dmdaBlockStart N P r) (dmdaBlockSize N P r))).getD
        dof 0 =
      ∑ r ∈ Finset.range P,
        fAvgLocalAcc f dof (dmdaBlockStart N P r) (dmdaBlockSize N P r) := by
    rw [List.getD_eq_getElem _ _ (by simpa using hdof)]
    simp
  rw [hget]
  have hsum : ∀ r, fAvgLocalAcc f dof (dmdaBlockStart N P r) (dmdaBlockSize N P r) =
      -∑ i ∈ Finset.range (dmdaBlockSize N P r),
        f (dmdaBlockStart N P r + i) dof :=
    fun r => fAvgLocalAcc_eq f dof _ _
  calc ∑ r ∈ Finset.range P,
        fAvgLocalAcc f dof (dmdaBlockStart N P r) (dmdaBlockSize N P r)
      = ∑ r ∈ Finset.range P,
          -∑ i ∈ Finset.range (dmdaBlockSize N P r),
            f (dmdaBlockStart N P r + i) dof := Finset.sum_congr rfl (fun r _ => hsum r)
    _ = -∑ r ∈ Finset.range P,
          ∑ i ∈ Finset.range (dmdaBlockSize N P r),
            f (dmdaBlockStart N P r + i) dof := by rw [Finset.sum_neg_distrib]
    _ = -∑ i ∈ Finset.range (dmdaBlockStart N P P), f i dof := by
          rw [sum_over_blocks (fun i => f i dof) N P P]
    _ = -∑ i ∈ Finset.range N, f i dof := by
          rw [dmdaBlockStart_top N P hP]

/-- C7 witness: the averaged-force identity on the concrete force field
`f i dof = i + dof` with `dim = 2`, `N = 3`, `P = 2`. -/
theorem calculateAvgForces_spec_witness :
    1 ≤ 2 ∧
    ((calculateAvgForces 2 3 2 (fun i dof => (i : ℚ) + dof)).length = 2 ∧
     (∀ dof, dof < 2 →
       (calculateAvgForces 2 3 2 (fun i dof => (i : ℚ) + dof)).getD dof 0 =
         -∑ i ∈ Finset.range 3, ((i : ℚ) + dof)) ∧
     (∀ r₁ r₂ : Nat,
       avgForcesOnRank 2 3 2 (fun i dof => (i : ℚ) + dof) r₁ =
         avgForcesOnRank 2 3 2 (fun i dof => (i : ℚ) + dof) r₂)) :=
  ⟨by decide, calculateAvgForces_spec 2 3 2 (fun i dof => (i : ℚ) + dof) (by decide)⟩

/-- C9: `writeBody` fails immediately with a descriptive error when the
dimensionality of the body is neither 2 nor 3; when `dim` is 2 or 3 it writes all
marker coordinate rows, one line per marker in global index order, and
leaves the marker coordinates unmodified. -/
theorem writeBody_spec (dim : Nat) (coords : List (List ℚ)) :
    ((dim ≠ 2 ∧ dim ≠ 3) →
      writeBody dim coords = .error "Function only supports 2D and 3D bodies.") ∧
    ((dim = 2 ∨ dim = 3) →
      writeBody dim coords =
        .ok (coords.map (fun row => (List.range dim).map (fun d => row.getD d 0)),
             coords)) := by
  constructor
  · rintro ⟨h2, h3⟩
    unfold writeBody
    rw [if_neg h3, if_neg h2]
  · rintro (rfl | rfl)
    · rfl
    · rfl

/-- C9 witness: a two-dimensional body with two markers is written as two
rows in marker order, with the stored coordinates unchanged. -/
theorem writeBody_spec_witness :
    ((2 : Nat) = 2 ∨ (2 : Nat) = 3) ∧
    writeBody 2 [[(1 : ℚ), 2], [3, 4]] =
      .ok ([[(1 : ℚ), 2], [3, 4]], [[(1 : ℚ), 2], [3, 4]]) :=
  ⟨Or.inl rfl, (writeBody_spec 2 [[(1 : ℚ), 2], [3, 4]]).2 (Or.inl rfl)⟩

/-- C10: the dimension-mismatch check of `init` reads `coords[0]`: on a body
file with zero markers the access indexes an empty sequence (undefined
behaviour, modelled as `none`) instead of reaching either the mismatch error
or a successful return; with at least one marker the check is well-defined
and succeeds exactly when `dim` equals the first row's length. -/
theorem initDimCheck_spec (dim : Nat) :
    initDimCheck dim [] = none ∧
    (∀ (row : List ℚ) (rest : List (List ℚ)),
      ∃ r, initDimCheck dim (row :: rest) = some r) ∧
    (∀ (row : List ℚ) (rest : List (List ℚ)),
      initDimCheck dim (row :: rest) = some (.ok ()) ↔ dim = row.length) := by
  refine ⟨rfl, ?_, ?_⟩
  · intro row rest
    exact ⟨_, rfl⟩
  · intro row rest
    unfold initDimCheck
    by_cases h : dim = row.length
    · simp [h]
    · simp [h]

/-! ## Helper lemmas: delta kernel -/

lemma romaPhi_at_zero : romaPhi 0 = 2 / 3 := by
  unfold romaPhi
  rw [if_pos (by norm_num : (0:ℝ) ≤ 1 / 2)]
  norm_num

lemma romaPhi_zero_of_ge (r : ℝ) (hr : 3 / 2 ≤ r) : romaPhi r = 0 := by
  unfold romaPhi
  rw [if_neg (by linarith : ¬ r ≤ 1 / 2)]
  by_cases h : r ≤ 3 / 2
  · rw [if_pos h]
    have hr' : r = 3 / 2 := le_antisymm h hr
    subst hr'
    have h14 : (1:ℝ) - 3 * (1 - 3 / 2) ^ 2 = 1 / 4 := by norm_num
    rw [h14, show (1/4 : ℝ) = (1/2) ^ 2 by norm_num,
      Real.sqrt_sq (by norm_num : (0:ℝ) ≤ 1 / 2)]
    norm_num
  · rw [if_neg h]

lemma sqrt_mid_bound (r : ℝ) (h1 : 1 / 2 < r) (h2 : r < 3 / 2) :
    Real.sqrt (1 - 3 * (1 - r) ^ 2) ^ 2 = 1 - 3 * (1 - r) ^ 2 ∧
    1 / 2 < Real.sqrt (1 - 3 * (1 - r) ^ 2) := by
  have harg : (0:ℝ) ≤ 1 - 3 * (1 - r) ^ 2 := by nlinarith
  refine ⟨Real.sq_sqrt harg, ?_⟩
  have h4 : (1:ℝ) / 4 < 1 - 3 * (1 - r) ^ 2 := by nlinarith
  have h5 := Real.sqrt_lt_sqrt (by norm_num : (0:ℝ) ≤ 1 / 4) h4
  rwa [show (1/4 : ℝ) = (1/2) ^ 2 by norm_num,
    Real.sqrt_sq (by norm_num : (0:ℝ) ≤ 1 / 2)] at h5

lemma romaPhi_strictAnti (x y : ℝ) (hx : 0 ≤ x) (hxy : x < y) (hy : y < 3 / 2) :
    romaPhi y < romaPhi x := by
  unfold romaPhi
  by_cases hy2 : y ≤ 1 / 2
  · rw [if_pos (by linarith : x ≤ 1 / 2), if_pos hy2]
    have h1 : (0:ℝ) ≤ 1 - 3 * y ^ 2 := by nlinarith
    have h2 : 1 - 3 * y ^ 2 < 1 - 3 * x ^ 2 := by nlinarith
    have h3 := Real.sqrt_lt_sqrt h1 h2
    linarith
  · push_neg at hy2
    rw [if_neg (by linarith : ¬ y ≤ 1 / 2), if_pos (le_of_lt hy)]
    obtain ⟨hsy2, hsyl⟩ := sqrt_mid_bound y hy2 hy
    by_cases hx2 : x ≤ 1 / 2
    · rw [if_pos hx2]
      have hs1 : (1:ℝ) / 4 ≤ 1 - 3 * x ^ 2 := by nlinarith
      have hs2 : (1:ℝ) / 2 ≤ Real.sqrt (1 - 3 * x ^ 2) := by
        have h6 := Real.sqrt_le_sqrt hs1
        rwa [show (1/4 : ℝ) = (1/2) ^ 2 by norm_num,
          Real.sqrt_sq (by norm_num : (0:ℝ) ≤ 1 / 2)] at h6
      linarith
    · push_neg at hx2
      rw [if_neg (by linarith : ¬ x ≤ 1 / 2), if_pos (by linarith : x ≤ 3 / 2)]
      obtain ⟨hsx2, hsxl⟩ := sqrt_mid_bound x hx2 (by linarith)
      have hkey : 3 * x + Real.sqrt (1 - 3 * (1 - x) ^ 2) <
          3 * y + Real.sqrt (1 - 3 * (1 - y) ^ 2) := by
        set sx := Real.sqrt (1 - 3 * (1 - x) ^ 2) with hsx
        set sy := Real.sqrt (1 - 3 * (1 - y) ^ 2) with hsy
        have hprod : (3 * y + sy - 3 * x - sx) * (sx + sy) =
            3 * (y - x) * (sx + sy + 2 - x - y) := by
          linear_combination hsy2 - hsx2
        have hfac : 0 < sx + sy + 2 - x - y := by linarith
        have hprodpos : 0 < (3 * y + sy - 3 * x - sx) * (sx + sy) := by
          rw [hprod]
          exact mul_pos (by linarith) hfac
        nlinarith [hprodpos, hsxl, hsyl]
      linarith

/-- C8: the discrete delta kernel of Roma et al. (1999), as a function of
distance and mesh width `h`: it vanishes identically for distances of at
least `1.5 h`, takes the value `2/3` at zero distance, and is strictly
monotonically decreasing in the absolute distance over the support
`[0, 1.5 h)`. -/
theorem roma_delta_spec (h : ℝ) (hh : 0 < h) :
    (∀ r : ℝ, 3 / 2 * h ≤ |r| → Roma_et_al_1999 r h = 0) ∧
    Roma_et_al_1999 0 h = 2 / 3 ∧
    (∀ a b : ℝ, 0 ≤ a → a < b → b < 3 / 2 * h →
      Roma_et_al_1999 b h < Roma_et_al_1999 a h) := by
  refine ⟨?_, ?_, ?_⟩
  · intro r hr
    unfold Roma_et_al_1999
    apply romaPhi_zero_of_ge
    rw [le_div_iff₀ hh]
    linarith
  · unfold Roma_et_al_1999
    rw [abs_zero, zero_div]
    exact romaPhi_at_zero
  · intro a b ha hab hb
    unfold Roma_et_al_1999
    rw [abs_of_nonneg ha, abs_of_nonneg (by linarith : (0:ℝ) ≤ b)]
    apply romaPhi_strictAnti
    · exact div_nonneg ha (le_of_lt hh)
    · exact (div_lt_div_iff_of_pos_right hh).mpr hab
    · rw [div_lt_iff₀ hh]
      linarith

/-- C8 witness: the kernel contract at the concrete mesh width `h = 1`
exercised by the unit test (zero at and beyond `1.5`, peak `2/3` at `0`,
strict decrease on `[0, 1.5)`). -/
theorem roma_delta_spec_witness :
    (0:ℝ) < 1 ∧
    ((∀ r : ℝ, 3 / 2 * 1 ≤ |r| → Roma_et_al_1999 r 1 = 0) ∧
     Roma_et_al_1999 0 1 = 2 / 3 ∧
     (∀ a b : ℝ, 0 ≤ a → a < b → b < 3 / 2 * 1 →
       Roma_et_al_1999 b 1 < Roma_et_al_1999 a 1)) :=
  ⟨zero_lt_one, roma_delta_spec 1 zero_lt_one⟩

end PetIBM
